import Mathlib

/-!
Verification of the wiki-material retrieval pipeline of this repository
(`src/tools/wiki_get_material.py`): the markup cleaner `_clean_wiki_text`,
the word-boundary truncation `_truncate_content`, the section parser
`_parse_sections`, the budget allocator `_apply_max_chars`, and the source
cascade `wiki_get_material`.

Text is modelled as `List Char`.  Python's `re.sub` for each of the concrete
patterns used by `_clean_wiki_text` is modelled by a scanning driver
(`applySubF`) together with one matcher per pattern; each matcher mirrors the
deterministic behaviour of its pattern (every character class in those
patterns excludes the character that must follow it, so the regex engine
never backtracks on these patterns and greedy runs are plain `takeWhile`).
Python float arithmetic is modelled exactly over the integers, for the
magnitudes reachable here (`n ≤ 20000`):
- `x > n * 0.4` and `int(n * 0.4)`: the binary64 nearest to 0.4 exceeds 2/5
  by `2⁻⁵³/5`, so the product `n * 0.4` lies above `2n/5` by `n·2⁻⁵³/5`,
  strictly less than half an ulp of its binade; it therefore rounds to the
  integer `2n/5` whenever that is an integer, and in all cases
  `x > n * 0.4 ↔ 5x > 2n` and `int(n * 0.4) = ⌊2n/5⌋` exactly.
- `cut > n * 0.7`: the binary64 nearest to 0.7 is below 7/10 by `2⁻⁵¹/10`,
  so the product lies below `7n/10` by `gap = n·2⁻⁵¹/10`, which is between
  a quarter and a half ulp; when `7n/10` is an integer `m` (iff `10 ∣ n`)
  the product rounds down past `m` exactly when `gap` exceeds half an ulp
  of `m`'s binade, i.e. when `10·2^⌊log₂ m⌋ < 4n` (ties round to `m`,
  whose significand `7·2⁵⁰·…` is even).  `cutThreshold07` packages the
  resulting least integer `cut` satisfying the float test; it was checked
  against CPython for every `n ≤ 200000`.
-/

namespace SchoolMCP

/-- Python `str.strip` whitespace set (ASCII part of it). -/
def pyWs (c : Char) : Bool :=
  c = ' ' || c = '\t' || c = '\n' || c = '\r' || c = '\x0b' || c = '\x0c'

/-- Python `str.strip`: drop leading and trailing whitespace. -/
def pyStrip (s : List Char) : List Char :=
  ((s.dropWhile pyWs).reverse.dropWhile pyWs).reverse

/-- Python `str.rfind(ch)`: index of the last occurrence, `-1` if absent. -/
def pyRfind (c : Char) : List Char → Int
  | [] => -1
  | x :: xs =>
    let r := pyRfind c xs
    if 0 ≤ r then r + 1
    else if x = c then 0 else -1

/-- Python `text.split('\n')` (keeps empty pieces; `"" ↦ [""]`). -/
def splitNl : List Char → List (List Char)
  | [] => [[]]
  | c :: rest =>
    match splitNl rest with
    | [] => [[]]
    | l :: ls => if c = '\n' then [] :: l :: ls else (c :: l) :: ls

/-- Python `'\n'.join(lines)`. -/
def joinNl (ls : List (List Char)) : List Char :=
  List.intercalate ['\n'] ls

/-! ### The `re.sub` driver and the matchers of `_clean_wiki_text` -/

/-- One `re.sub` pass: scan left to right; where the matcher fires, emit its
replacement and resume after the consumed text; otherwise copy one character.
`fuel` bounds the recursion; with `fuel = s.length` it never runs out because
every matcher of this file consumes at least one character. -/
def applySubF (m : List Char → Option (List Char × List Char)) :
    Nat → List Char → List Char
  | 0, s => s
  | _ + 1, [] => []
  | f + 1, c :: cs =>
    match m (c :: cs) with
    | some (rep, rest) => rep ++ applySubF m f rest
    | none => c :: applySubF m f cs

/-- One full substitution pass over a string. -/
def cleanPass (m : List Char → Option (List Char × List Char))
    (s : List Char) : List Char :=
  applySubF m s.length s

/-- Expect one fixed character. -/
def expectChar (c : Char) : List Char → Option (List Char)
  | x :: xs => if x = c then some xs else none
  | [] => none

/-- Expect a fixed literal word. -/
def expectStr : List Char → List Char → Option (List Char)
  | [], s => some s
  | _ :: _, [] => none
  | c :: cs, x :: xs => if x = c then expectStr cs xs else none

/-- Expect one word out of an alternation (the alternatives used below start
with pairwise distinct characters, so at most one can apply). -/
def expectAlts : List (List Char) → List Char → Option (List Char)
  | [], _ => none
  | w :: ws, s =>
    match expectStr w s with
    | some r => some r
    | none => expectAlts ws s

/-- Greedy non-empty character-class run `[cls]+`. -/
def takeClass1 (p : Char → Bool) (s : List Char) :
    Option (List Char × List Char) :=
  let t := s.takeWhile p
  if t.isEmpty then none else some (t, s.dropWhile p)

/-- Alternatives of `(?:File|Image|Файл|Изображение)`. -/
def fileWords : List (List Char) :=
  [['F','i','l','e'], ['I','m','a','g','e'], ['Ф','а','й','л'],
   ['И','з','о','б','р','а','ж','е','н','и','е']]

/-- Alternatives of `(?:Category|Категория)`. -/
def categoryWords : List (List Char) :=
  [['C','a','t','e','g','o','r','y'], ['К','а','т','е','г','о','р','и','я']]

/-- Matcher of `\[\[(?:WORDS):[^\]]+\]\]` (deleted). -/
def mPrefixedLink (ws : List (List Char)) (s : List Char) :
    Option (List Char × List Char) :=
  match expectChar '[' s with
  | none => none
  | some sa =>
    match expectChar '[' sa with
    | none => none
    | some s1 =>
      match expectAlts ws s1 with
      | none => none
      | some s2 =>
        match expectChar ':' s2 with
        | none => none
        | some s3 =>
          match takeClass1 (fun c => c != ']') s3 with
          | none => none
          | some (_, s4) =>
            match expectChar ']' s4 with
            | none => none
            | some s5 =>
              match expectChar ']' s5 with
              | none => none
              | some s6 => some ([], s6)

/-- Matcher of `\[\[[^\|\]]+\|([^\]]+)\]\]` (replaced by the group). -/
def mPipedLink (s : List Char) : Option (List Char × List Char) :=
  match expectChar '[' s with
  | none => none
  | some sa =>
    match expectChar '[' sa with
    | none => none
    | some s1 =>
      match takeClass1 (fun c => c != '|' && c != ']') s1 with
      | none => none
      | some (_, s2) =>
        match expectChar '|' s2 with
        | none => none
        | some s3 =>
          match takeClass1 (fun c => c != ']') s3 with
          | none => none
          | some (d, s4) =>
            match expectChar ']' s4 with
            | none => none
            | some s5 =>
              match expectChar ']' s5 with
              | none => none
              | some s6 => some (d, s6)

/-- Matcher of `\[\[([^\]]+)\]\]` (replaced by the group). -/
def mSimpleLink (s : List Char) : Option (List Char × List Char) :=
  match expectChar '[' s with
  | none => none
  | some sa =>
    match expectChar '[' sa with
    | none => none
    | some s1 =>
      match takeClass1 (fun c => c != ']') s1 with
      | none => none
      | some (g, s2) =>
        match expectChar ']' s2 with
        | none => none
        | some s3 =>
          match expectChar ']' s3 with
          | none => none
          | some s4 => some (g, s4)

/-- Matcher of `\{\{[^}]+\}\}` (deleted). -/
def mTemplate (s : List Char) : Option (List Char × List Char) :=
  match expectChar '{' s with
  | none => none
  | some sa =>
    match expectChar '{' sa with
    | none => none
    | some s1 =>
      match takeClass1 (fun c => c != '}') s1 with
      | none => none
      | some (_, s2) =>
        match expectChar '}' s2 with
        | none => none
        | some s3 =>
          match expectChar '}' s3 with
          | none => none
          | some s4 => some ([], s4)

/-- Matcher of `<[^>]+>` (deleted). -/
def mHtmlTag (s : List Char) : Option (List Char × List Char) :=
  match expectChar '<' s with
  | none => none
  | some s1 =>
    match takeClass1 (fun c => c != '>') s1 with
    | none => none
    | some (_, s2) =>
      match expectChar '>' s2 with
      | none => none
      | some s3 => some ([], s3)

/-- Matcher of `\n{3,}` (replaced by two newlines). -/
def mNewlineRun (s : List Char) : Option (List Char × List Char) :=
  match takeClass1 (fun c => c == '\n') s with
  | none => none
  | some (run, rest) =>
    if 3 ≤ run.length then some (['\n', '\n'], rest) else none

/-- Matcher of ` {2,}` (replaced by one space). -/
def mSpaceRun (s : List Char) : Option (List Char × List Char) :=
  match takeClass1 (fun c => c == ' ') s with
  | none => none
  | some (run, rest) =>
    if 2 ≤ run.length then some ([' '], rest) else none

/-- `_clean_wiki_text`: the eight `re.sub` passes in source order, then
`strip()`. -/
def cleanWikiText (s : List Char) : List Char :=
  pyStrip
    (cleanPass mSpaceRun
      (cleanPass mNewlineRun
        (cleanPass mHtmlTag
          (cleanPass mTemplate
            (cleanPass mSimpleLink
              (cleanPass mPipedLink
                (cleanPass (mPrefixedLink categoryWords)
                  (cleanPass (mPrefixedLink fileWords) s))))))))

/-! ### `_truncate_content` -/

/-- The three-character ellipsis marker `"..."`. -/
def ellipsisMarker : List Char := ['.', '.', '.']

/-- The least integer `cut` for which Python's binary64 comparison
`cut > n * 0.7` is true (see the header note): for `10 ∤ n` the product is
within `2·10⁻¹²` of the non-integer `7n/10`, giving `⌊7n/10⌋ + 1`; for
`10 ∣ n`, `n > 0`, the product sits just below the integer `m = 7n/10` and
rounds below it exactly when `10·2^⌊log₂ m⌋ < 4n`, making the float test
true already at `cut = m`. -/
def cutThreshold07 (n : Nat) : Int :=
  if n % 10 = 0 ∧ 0 < n ∧ 10 * 2 ^ Nat.log2 (7 * n / 10) < 4 * n then
    ((7 * n / 10 : Nat) : Int)
  else ((7 * n / 10 : Nat) : Int) + 1

/-- `_truncate_content(content, max_chars)`: cut to `max_chars` characters at
the last space/newline when that point passes the float test
`cut_point > max_chars * 0.7` (modelled exactly by `cutThreshold07`), else
cut hard; append `"..."` in both cases. -/
def truncateContent (content : List Char) (maxChars : Nat) : List Char :=
  if content.length ≤ maxChars then content
  else
    let truncated := content.take maxChars
    let lastSpace := pyRfind ' ' truncated
    let lastNewline := pyRfind '\n' truncated
    let cutPoint := max lastSpace lastNewline
    if cutThreshold07 maxChars ≤ cutPoint then
      truncated.take cutPoint.toNat ++ ellipsisMarker
    else truncated ++ ellipsisMarker

/-! ### `_parse_sections` -/

/-- One titled section of a parsed document. -/
structure WSection where
  title : List Char
  content : List Char
deriving DecidableEq, Repr

/-- The `{"summary": ..., "sections": ...}` dict returned by
`_parse_sections`. -/
structure ParsedDoc where
  summary : List Char
  sections : List WSection
deriving DecidableEq, Repr

/-- `re.match(r'^==+\s*([^=]+?)\s*==+$', line)` and `group(1).strip()`:
a line is a heading exactly when it is a run of two-or-more `=`, then a
non-empty middle free of `=`, then a closing run of two-or-more `=`; the
title is the stripped middle.  (The pattern's character class `[^=]` cannot
match `=`, so the greedy/lazy quantifiers have a unique viable split and the
`\s*` groups only shift whitespace that `strip()` removes anyway.) -/
def headingTitle (line : List Char) : Option (List Char) :=
  let lead := line.takeWhile (fun c => c == '=')
  if lead.length < 2 then none
  else
    let rest := line.dropWhile (fun c => c == '=')
    let trail := rest.reverse.takeWhile (fun c => c == '=')
    let mid := (rest.reverse.dropWhile (fun c => c == '=')).reverse
    if trail.length < 2 then none
    else if mid.isEmpty then none
    else if mid.any (fun c => c == '=') then none
    else some (pyStrip mid)

/-- Close the open section accumulator: clean its joined body and append it
only when the cleaned body does not strip to the empty string
(`if current_section["content"].strip():`). -/
def finalizeInto (sections : List WSection)
    (cur : Option (List Char × List (List Char))) : List WSection :=
  match cur with
  | none => sections
  | some (t, ls) =>
    let content := cleanWikiText (joinNl ls)
    if pyStrip content = [] then sections else sections ++ [⟨t, content⟩]

/-- The line loop of `_parse_sections`: state is (accumulated sections, open
section accumulator, summary lines, in-summary flag). -/
def parseGo : List (List Char) → List WSection →
    Option (List Char × List (List Char)) → List (List Char) → Bool →
    ParsedDoc
  | [], sections, cur, summaryLines, _ =>
    ⟨cleanWikiText (joinNl summaryLines), finalizeInto sections cur⟩
  | line :: rest, sections, cur, summaryLines, inSummary =>
    match headingTitle line with
    | some t =>
      parseGo rest (finalizeInto sections cur) (some (t, [])) summaryLines false
    | none =>
      if inSummary then
        parseGo rest sections cur (summaryLines ++ [line]) inSummary
      else
        match cur with
        | some (t0, ls) =>
          parseGo rest sections (some (t0, ls ++ [line])) summaryLines inSummary
        | none => parseGo rest sections cur summaryLines inSummary

/-- `_parse_sections(text, title)` (the `title` argument is unused in the
source as well). -/
def parseSections (text : List Char) (_title : List Char) : ParsedDoc :=
  if text = [] then ⟨[], []⟩
  else parseGo (splitNl text) [] none [] true

/-! ### `_apply_max_chars` -/

/-- The success payload assembled by `wiki_get_material` (the dict with
title, summary, sections, source_urls, source). -/
structure Material where
  title : List Char
  summary : List Char
  sections : List WSection
  sourceUrls : List (List Char)
  sourceName : List Char
deriving DecidableEq, Repr

/-- `total_chars`: summary length plus the sum of section content lengths
(titles not counted). -/
def totalChars (m : Material) : Nat :=
  m.summary.length + (m.sections.map (fun s => s.content.length)).sum

/-- `_apply_max_chars(result, max_chars)`.  `remaining_chars` is an `Int` as
in Python; `int(remaining_chars * 0.4)` is the exact `2 * maxChars / 5`
(see the header note on floats), and `remaining_chars // len(sections)` is
only evaluated under `remaining_chars > 0`, where Python floor division
agrees with `Nat` division on `remaining.toNat`. -/
def applyMaxChars (m : Material) (maxChars : Nat) : Material :=
  if totalChars m ≤ maxChars then m
  else
    let summary' :=
      if m.summary ≠ [] ∧ 5 * m.summary.length > 2 * maxChars then
        truncateContent m.summary (2 * maxChars / 5)
      else m.summary
    let remaining : Int := (maxChars : Int) - (summary'.length : Int)
    let sections' :=
      if m.sections ≠ [] ∧ 0 < remaining then
        m.sections.map (fun s =>
          if remaining.toNat / m.sections.length < s.content.length then
            ⟨s.title, truncateContent s.content
              (remaining.toNat / m.sections.length)⟩
          else s)
      else m.sections
    ⟨m.title, summary', sections', m.sourceUrls, m.sourceName⟩

/-! ### `wiki_get_material`: the source cascade

The external search and fetch calls are network operations; they are
modelled by an environment `env : Nat → SourceResp` giving, for the `i`-th
source tried, the outcome of its search call and (when the search hit) of
its fetch call.  A raised exception anywhere in one source's attempt is the
`raises` outcome (all exception handlers in the loop `continue`). -/

/-- A configured wiki source (`{"name": ..., "url": ...}`). -/
structure Source where
  name : List Char
  url : List Char
deriving DecidableEq, Repr

/-- `_search_wiki` success payload. -/
structure SearchHit where
  title : List Char
  pageid : Nat
deriving DecidableEq, Repr

/-- `_get_article_content` success payload. -/
structure Article where
  title : List Char
  extract : List Char
  url : List Char
deriving DecidableEq, Repr

/-- Outcome of one source's external calls. -/
inductive SourceResp where
  | raises
  | resp (search : Option SearchHit) (article : Option Article)
deriving DecidableEq, Repr

/-- The `WIKI_SOURCES` table. -/
def WIKI_SOURCES : List (List Char × List Source) :=
  [("ru".data,
    [⟨"wikibooks".data, "https://ru.wikibooks.org/w/api.php".data⟩,
     ⟨"wikipedia".data, "https://ru.wikipedia.org/w/api.php".data⟩]),
   ("en".data,
    [⟨"wikibooks".data, "https://en.wikibooks.org/w/api.php".data⟩,
     ⟨"vikidia".data, "https://en.vikidia.org/w/api.php".data⟩,
     ⟨"wikipedia".data, "https://en.wikipedia.org/w/api.php".data⟩])]

/-- `WIKI_SOURCES[language]` lookup (`language not in WIKI_SOURCES` iff
`none`). -/
def lookupSources (language : List Char) : Option (List Source) :=
  WIKI_SOURCES.lookup language

/-- Return values of `wiki_get_material`: the success dict, the
unsupported-language error dict (carries the topic), or the exhausted
not-found dict (carries the topic and the searched source names). -/
inductive WikiResult where
  | material (m : Material)
  | unsupportedLanguage (topic language : List Char)
  | notFound (topic : List Char) (searchedSources : List (List Char))
deriving DecidableEq, Repr

/-- One iteration of the source loop: `none` means the loop continues to the
next source, `some` is the returned material. -/
def trySource (src : Source) (r : SourceResp) (maxChars : Nat) :
    Option Material :=
  match r with
  | .raises => none
  | .resp none _ => none
  | .resp (some _) none => none
  | .resp (some _) (some a) =>
    if a.extract = [] then none
    else
      let parsed := parseSections a.extract a.title
      if parsed.summary = [] ∧ parsed.sections = [] then none
      else
        let urls := if a.url = [] then [] else [a.url]
        some (applyMaxChars
          ⟨a.title, parsed.summary, parsed.sections, urls, src.name⟩ maxChars)

/-- The source loop, also counting how many sources were queried (each
iteration issues that source's search call before anything else, so the
count is exactly the number of sources whose search operation ran).  `i` is
the index into the environment. -/
def cascadeGo (maxChars : Nat) (env : Nat → SourceResp) :
    List Source → Nat → Option Material × Nat
  | [], _ => (none, 0)
  | src :: rest, i =>
    match trySource src (env i) maxChars with
    | some mat => (some mat, 1)
    | none =>
      let p := cascadeGo maxChars env rest (i + 1)
      (p.1, p.2 + 1)

/-- `wiki_get_material(topic, language, max_chars)` under environment `env`;
the second component is the number of sources queried (0 = no network
activity). -/
def wikiGetMaterial (topic language : List Char) (maxChars : Nat)
    (env : Nat → SourceResp) : WikiResult × Nat :=
  match lookupSources language with
  | none => (.unsupportedLanguage topic language, 0)
  | some sources =>
    match cascadeGo maxChars env sources 0 with
    | (some mat, n) => (.material mat, n)
    | (none, n) => (.notFound topic (sources.map (fun s => s.name)), n)

/-! ### Lemmas: matcher combinators -/

theorem expectChar_eq_some {c : Char} {s r : List Char}
    (h : expectChar c s = some r) : s = c :: r := by
  cases s with
  | nil => simp [expectChar] at h
  | cons x xs =>
    simp only [expectChar] at h
    split at h
    · next hx => cases h; rw [hx]
    · cases h

theorem expectStr_eq_some : ∀ {w s r : List Char},
    expectStr w s = some r → s = w ++ r := by
  intro w
  induction w with
  | nil => intro s r h; simp only [expectStr, Option.some_inj] at h; simp [h]
  | cons c cs ih =>
    intro s r h
    cases s with
    | nil => simp [expectStr] at h
    | cons x xs =>
      simp only [expectStr] at h
      split at h
      · next hx => have := ih h; simp [hx, this]
      · cases h

theorem expectAlts_eq_some : ∀ {ws : List (List Char)} {s r : List Char},
    expectAlts ws s = some r → ∃ w, w ∈ ws ∧ s = w ++ r := by
  intro ws
  induction ws with
  | nil => intro s r h; simp [expectAlts] at h
  | cons w ws ih =>
    intro s r h
    simp only [expectAlts] at h
    cases hw : expectStr w s with
    | some r' =>
      rw [hw] at h; cases h
      exact ⟨w, List.mem_cons_self _ _, expectStr_eq_some hw⟩
    | none =>
      rw [hw] at h
      obtain ⟨w', hw', hs⟩ := ih h
      exact ⟨w', List.mem_cons_of_mem _ hw', hs⟩

theorem takeClass1_eq_some {p : Char → Bool} {s t r : List Char}
    (h : takeClass1 p s = some (t, r)) :
    s = t ++ r ∧ t ≠ [] ∧ ∀ c ∈ t, p c = true := by
  simp only [takeClass1] at h
  split at h
  · cases h
  · next hne =>
    cases h
    refine ⟨(List.takeWhile_append_dropWhile ..).symm, ?_, ?_⟩
    · simpa [List.isEmpty_iff] using hne
    · intro c hc; exact List.mem_takeWhile_imp hc

/-! ### Lemmas: matcher shape specifications -/

theorem mPrefixedLink_spec {ws : List (List Char)} {s rep rest : List Char}
    (h : mPrefixedLink ws s = some (rep, rest)) :
    rep = [] ∧ ∃ w body, w ∈ ws ∧ body ≠ [] ∧
      s = '[' :: '[' :: (w ++ ':' :: (body ++ ']' :: ']' :: rest)) := by
  unfold mPrefixedLink at h
  split at h; · cases h
  next sa h1 =>
  split at h; · cases h
  next s1 h2 =>
  split at h; · cases h
  next s2 h3 =>
  split at h; · cases h
  next s3 h4 =>
  split at h; · cases h
  next body s4 h5 =>
  split at h; · cases h
  next s5 h6 =>
  split at h; · cases h
  next s6 h7 =>
  cases h
  obtain ⟨w, hw, hs1⟩ := expectAlts_eq_some h3
  obtain ⟨hb1, hb2, -⟩ := takeClass1_eq_some h5
  refine ⟨rfl, w, body, hw, hb2, ?_⟩
  rw [expectChar_eq_some h1, expectChar_eq_some h2, hs1,
    expectChar_eq_some h4, hb1, expectChar_eq_some h6, expectChar_eq_some h7]

theorem mPipedLink_spec {s rep rest : List Char}
    (h : mPipedLink s = some (rep, rest)) :
    rep ≠ [] ∧ ∃ t, t ≠ [] ∧
      s = '[' :: '[' :: (t ++ '|' :: (rep ++ ']' :: ']' :: rest)) := by
  unfold mPipedLink at h
  split at h; · cases h
  next sa h1 =>
  split at h; · cases h
  next s1 h2 =>
  split at h; · cases h
  next t s2 h3 =>
  split at h; · cases h
  next s3 h4 =>
  split at h; · cases h
  next d s4 h5 =>
  split at h; · cases h
  next s5 h6 =>
  split at h; · cases h
  next s6 h7 =>
  cases h
  obtain ⟨ht1, ht2, -⟩ := takeClass1_eq_some h3
  obtain ⟨hd1, hd2, -⟩ := takeClass1_eq_some h5
  refine ⟨hd2, t, ht2, ?_⟩
  rw [expectChar_eq_some h1, expectChar_eq_some h2, ht1,
    expectChar_eq_some h4, hd1, expectChar_eq_some h6, expectChar_eq_some h7]

theorem mSimpleLink_spec {s rep rest : List Char}
    (h : mSimpleLink s = some (rep, rest)) :
    rep ≠ [] ∧ s = '[' :: '[' :: (rep ++ ']' :: ']' :: rest) := by
  unfold mSimpleLink at h
  split at h; · cases h
  next sa h1 =>
  split at h; · cases h
  next s1 h2 =>
  split at h; · cases h
  next g s2 h3 =>
  split at h; · cases h
  next s3 h4 =>
  split at h; · cases h
  next s4 h5 =>
  cases h
  obtain ⟨hg1, hg2, -⟩ := takeClass1_eq_some h3
  refine ⟨hg2, ?_⟩
  rw [expectChar_eq_some h1, expectChar_eq_some h2, hg1,
    expectChar_eq_some h4, expectChar_eq_some h5]

theorem mTemplate_spec {s rep rest : List Char}
    (h : mTemplate s = some (rep, rest)) :
    rep = [] ∧ ∃ b, b ≠ [] ∧ s = '{' :: '{' :: (b ++ '}' :: '}' :: rest) := by
  unfold mTemplate at h
  split at h; · cases h
  next sa h1 =>
  split at h; · cases h
  next s1 h2 =>
  split at h; · cases h
  next b s2 h3 =>
  split at h; · cases h
  next s3 h4 =>
  split at h; · cases h
  next s4 h5 =>
  cases h
  obtain ⟨hb1, hb2, -⟩ := takeClass1_eq_some h3
  refine ⟨rfl, b, hb2, ?_⟩
  rw [expectChar_eq_some h1, expectChar_eq_some h2, hb1,
    expectChar_eq_some h4, expectChar_eq_some h5]

theorem mHtmlTag_spec {s rep rest : List Char}
    (h : mHtmlTag s = some (rep, rest)) :
    rep = [] ∧ ∃ b, b ≠ [] ∧ s = '<' :: (b ++ '>' :: rest) := by
  unfold mHtmlTag at h
  split at h; · cases h
  next s1 h1 =>
  split at h; · cases h
  next b s2 h2 =>
  split at h; · cases h
  next s3 h3 =>
  cases h
  obtain ⟨hb1, hb2, -⟩ := takeClass1_eq_some h2
  refine ⟨rfl, b, hb2, ?_⟩
  rw [expectChar_eq_some h1, hb1, expectChar_eq_some h3]

theorem mNewlineRun_spec {s rep rest : List Char}
    (h : mNewlineRun s = some (rep, rest)) :
    rep = ['\n', '\n'] ∧ ∃ run, 3 ≤ run.length ∧ (∀ c ∈ run, c = '\n') ∧
      s = run ++ rest := by
  unfold mNewlineRun at h
  split at h; · cases h
  next run r h1 =>
  split at h
  · next hlen =>
    cases h
    obtain ⟨hr1, hr2, hr3⟩ := takeClass1_eq_some h1
    exact ⟨rfl, run, hlen, fun c hc => by simpa using hr3 c hc, hr1⟩
  · cases h

theorem mSpaceRun_spec {s rep rest : List Char}
    (h : mSpaceRun s = some (rep, rest)) :
    rep = [' '] ∧ ∃ run, 2 ≤ run.length ∧ (∀ c ∈ run, c = ' ') ∧
      s = run ++ rest := by
  unfold mSpaceRun at h
  split at h; · cases h
  next run r h1 =>
  split at h
  · next hlen =>
    cases h
    obtain ⟨hr1, hr2, hr3⟩ := takeClass1_eq_some h1
    exact ⟨rfl, run, hlen, fun c hc => by simpa using hr3 c hc, hr1⟩
  · cases h

/-! ### Lemmas: the substitution driver -/

theorem applySubF_nil (m : List Char → Option (List Char × List Char)) :
    ∀ f, applySubF m f [] = [] := by
  intro f; cases f <;> rfl

theorem applySubF_cons_match {m : List Char → Option (List Char × List Char)}
    {c : Char} {cs rep rest : List Char} (h : m (c :: cs) = some (rep, rest))
    (f : Nat) : applySubF m (f + 1) (c :: cs) = rep ++ applySubF m f rest := by
  simp [applySubF, h]

/-- If every successful match must contain a `bad` character and `s` has
none, the pass is the identity. -/
theorem applySubF_id {m : List Char → Option (List Char × List Char)}
    (bad : Char → Prop)
    (hm : ∀ t p, m t = some p → ∃ c, c ∈ t ∧ bad c) :
    ∀ (f : Nat) (s : List Char), (∀ c ∈ s, ¬ bad c) → applySubF m f s = s := by
  intro f
  induction f with
  | zero => intro s _; rfl
  | succ f ih =>
    intro s hs
    cases s with
    | nil => rfl
    | cons c cs =>
      cases hmc : m (c :: cs) with
      | some p =>
        obtain ⟨b, hb, hbad⟩ := hm _ _ hmc
        exact absurd hbad (hs b hb)
      | none =>
        simp only [applySubF, hmc]
        rw [ih cs (fun x hx => hs x (List.mem_cons_of_mem _ hx))]

/-- If every successful match consumes at least as many characters as it
emits, a pass never lengthens the string. -/
theorem applySubF_length {m : List Char → Option (List Char × List Char)}
    (hm : ∀ t rep rest, m t = some (rep, rest) →
      rep.length + rest.length ≤ t.length) :
    ∀ (f : Nat) (s : List Char), (applySubF m f s).length ≤ s.length := by
  intro f
  induction f with
  | zero => intro s; exact Nat.le_refl _
  | succ f ih =>
    intro s
    cases s with
    | nil => exact Nat.le_refl _
    | cons c cs =>
      cases hmc : m (c :: cs) with
      | some p =>
        obtain ⟨rep, rest⟩ := p
        have hlen := hm _ _ _ hmc
        simp only [List.length_cons] at hlen
        simp only [applySubF, hmc, List.length_append, List.length_cons]
        have := ih rest
        omega
      | none =>
        simp only [applySubF, hmc, List.length_cons]
        have := ih cs
        omega

theorem cleanPass_id {m : List Char → Option (List Char × List Char)}
    (bad : Char → Prop)
    (hm : ∀ t p, m t = some p → ∃ c, c ∈ t ∧ bad c)
    {s : List Char} (hs : ∀ c ∈ s, ¬ bad c) : cleanPass m s = s :=
  applySubF_id bad hm s.length s hs

theorem cleanPass_length {m : List Char → Option (List Char × List Char)}
    (hm : ∀ t rep rest, m t = some (rep, rest) →
      rep.length + rest.length ≤ t.length)
    (s : List Char) : (cleanPass m s).length ≤ s.length :=
  applySubF_length hm s.length s

/-! ### Lemmas: `pyStrip` -/

theorem dropWhile_of_head {p : Char → Bool} :
    ∀ {s : List Char}, (∀ c ∈ s, p c = false) → s.dropWhile p = s := by
  intro s hs
  cases s with
  | nil => rfl
  | cons c cs =>
    rw [List.dropWhile_cons_of_neg]
    simp [hs c (List.mem_cons_self _ _)]

theorem pyStrip_id {s : List Char} (hs : ∀ c ∈ s, pyWs c = false) :
    pyStrip s = s := by
  unfold pyStrip
  rw [dropWhile_of_head hs,
    dropWhile_of_head (fun c hc => hs c ((List.mem_reverse).1 hc))]
  exact List.reverse_reverse s

theorem dropWhile_length_le (p : Char → Bool) :
    ∀ s : List Char, (s.dropWhile p).length ≤ s.length := by
  intro s
  induction s with
  | nil => exact Nat.le_refl _
  | cons c cs ih =>
    by_cases hc : p c
    · rw [List.dropWhile_cons_of_pos hc]; exact Nat.le_succ_of_le ih
    · rw [List.dropWhile_cons_of_neg hc]

theorem pyStrip_length_le (s : List Char) : (pyStrip s).length ≤ s.length := by
  unfold pyStrip
  calc ((s.dropWhile pyWs).reverse.dropWhile pyWs).reverse.length
      = ((s.dropWhile pyWs).reverse.dropWhile pyWs).length :=
        List.length_reverse _
    _ ≤ (s.dropWhile pyWs).reverse.length := dropWhile_length_le _ _
    _ = (s.dropWhile pyWs).length := List.length_reverse _
    _ ≤ s.length := dropWhile_length_le _ _

theorem pyStrip_nil : pyStrip [] = [] := rfl

/-! ### Lemmas: plain characters -/

/-- An ASCII letter is none of the markup-significant characters. -/
theorem isAlpha_ne {c : Char} (h : c.isAlpha = true) :
    c ≠ ':' ∧ c ≠ '[' ∧ c ≠ ']' ∧ c ≠ '|' ∧ c ≠ '{' ∧ c ≠ '}' ∧
    c ≠ '<' ∧ c ≠ '>' ∧ c ≠ '\n' ∧ pyWs c = false := by
  have hne : ∀ d : Char, d.isAlpha = false → c ≠ d := by
    intro d hd he
    subst he
    rw [h] at hd
    cases hd
  refine ⟨hne _ (by decide), hne _ (by decide), hne _ (by decide),
    hne _ (by decide), hne _ (by decide), hne _ (by decide),
    hne _ (by decide), hne _ (by decide), hne _ (by decide), ?_⟩
  simp only [pyWs, Bool.or_eq_false_iff, decide_eq_false_iff_not]
  exact ⟨⟨⟨⟨⟨hne _ (by decide), hne _ (by decide)⟩, hne _ (by decide)⟩,
    hne _ (by decide)⟩, hne _ (by decide)⟩, hne _ (by decide)⟩

/-! ### Lemmas: which characters a successful match must contain, and how
much it consumes -/

theorem mPrefixedLink_has_close {ws : List (List Char)} :
    ∀ t p, mPrefixedLink ws t = some p → ∃ c, c ∈ t ∧ c = ']' := by
  intro t p h
  obtain ⟨rep, rest⟩ := p
  obtain ⟨-, w, body, -, -, hs⟩ := mPrefixedLink_spec h
  exact ⟨']', by simp [hs], rfl⟩

theorem mPrefixedLink_has_colon {ws : List (List Char)} :
    ∀ t p, mPrefixedLink ws t = some p → ∃ c, c ∈ t ∧ c = ':' := by
  intro t p h
  obtain ⟨rep, rest⟩ := p
  obtain ⟨-, w, body, -, -, hs⟩ := mPrefixedLink_spec h
  exact ⟨':', by simp [hs], rfl⟩

theorem mPipedLink_has_close :
    ∀ t p, mPipedLink t = some p → ∃ c, c ∈ t ∧ c = ']' := by
  intro t p h
  obtain ⟨rep, rest⟩ := p
  obtain ⟨-, t', -, hs⟩ := mPipedLink_spec h
  exact ⟨']', by simp [hs], rfl⟩

theorem mSimpleLink_has_close :
    ∀ t p, mSimpleLink t = some p → ∃ c, c ∈ t ∧ c = ']' := by
  intro t p h
  obtain ⟨rep, rest⟩ := p
  obtain ⟨-, hs⟩ := mSimpleLink_spec h
  exact ⟨']', by simp [hs], rfl⟩

theorem mTemplate_has_close :
    ∀ t p, mTemplate t = some p → ∃ c, c ∈ t ∧ c = '}' := by
  intro t p h
  obtain ⟨rep, rest⟩ := p
  obtain ⟨-, b, -, hs⟩ := mTemplate_spec h
  exact ⟨'}', by simp [hs], rfl⟩

theorem mHtmlTag_has_close :
    ∀ t p, mHtmlTag t = some p → ∃ c, c ∈ t ∧ c = '>' := by
  intro t p h
  obtain ⟨rep, rest⟩ := p
  obtain ⟨-, b, -, hs⟩ := mHtmlTag_spec h
  exact ⟨'>', by simp [hs], rfl⟩

theorem mNewlineRun_has_nl :
    ∀ t p, mNewlineRun t = some p → ∃ c, c ∈ t ∧ c = '\n' := by
  intro t p h
  obtain ⟨rep, rest⟩ := p
  obtain ⟨-, run, hlen, hall, hs⟩ := mNewlineRun_spec h
  cases run with
  | nil => simp at hlen
  | cons r0 rs =>
    exact ⟨r0, by simp [hs], hall r0 (List.mem_cons_self _ _)⟩

theorem mSpaceRun_has_space :
    ∀ t p, mSpaceRun t = some p → ∃ c, c ∈ t ∧ c = ' ' := by
  intro t p h
  obtain ⟨rep, rest⟩ := p
  obtain ⟨-, run, hlen, hall, hs⟩ := mSpaceRun_spec h
  cases run with
  | nil => simp at hlen
  | cons r0 rs =>
    exact ⟨r0, by simp [hs], hall r0 (List.mem_cons_self _ _)⟩

theorem mPrefixedLink_consume {ws : List (List Char)} :
    ∀ t rep rest, mPrefixedLink ws t = some (rep, rest) →
      rep.length + rest.length ≤ t.length := by
  intro t rep rest h
  obtain ⟨hrep, w, body, -, -, hs⟩ := mPrefixedLink_spec h
  subst hrep hs
  simp only [List.length_cons, List.length_append, List.length_nil]
  omega

theorem mPipedLink_consume :
    ∀ t rep rest, mPipedLink t = some (rep, rest) →
      rep.length + rest.length ≤ t.length := by
  intro t rep rest h
  obtain ⟨-, t', -, hs⟩ := mPipedLink_spec h
  subst hs
  simp only [List.length_cons, List.length_append]
  omega

theorem mSimpleLink_consume :
    ∀ t rep rest, mSimpleLink t = some (rep, rest) →
      rep.length + rest.length ≤ t.length := by
  intro t rep rest h
  obtain ⟨-, hs⟩ := mSimpleLink_spec h
  subst hs
  simp only [List.length_cons, List.length_append]
  omega

theorem mTemplate_consume :
    ∀ t rep rest, mTemplate t = some (rep, rest) →
      rep.length + rest.length ≤ t.length := by
  intro t rep rest h
  obtain ⟨hrep, b, -, hs⟩ := mTemplate_spec h
  subst hrep hs
  simp only [List.length_cons, List.length_append, List.length_nil]
  omega

theorem mHtmlTag_consume :
    ∀ t rep rest, mHtmlTag t = some (rep, rest) →
      rep.length + rest.length ≤ t.length := by
  intro t rep rest h
  obtain ⟨hrep, b, -, hs⟩ := mHtmlTag_spec h
  subst hrep hs
  simp only [List.length_cons, List.length_append, List.length_nil]
  omega

theorem mNewlineRun_consume :
    ∀ t rep rest, mNewlineRun t = some (rep, rest) →
      rep.length + rest.length ≤ t.length := by
  intro t rep rest h
  obtain ⟨hrep, run, hlen, -, hs⟩ := mNewlineRun_spec h
  subst hrep hs
  simp only [List.length_cons, List.length_append, List.length_nil]
  omega

theorem mSpaceRun_consume :
    ∀ t rep rest, mSpaceRun t = some (rep, rest) →
      rep.length + rest.length ≤ t.length := by
  intro t rep rest h
  obtain ⟨hrep, run, hlen, -, hs⟩ := mSpaceRun_spec h
  subst hrep hs
  simp only [List.length_cons, List.length_append, List.length_nil]
  omega

theorem cleanWikiText_length_le (s : List Char) :
    (cleanWikiText s).length ≤ s.length := by
  unfold cleanWikiText
  refine le_trans (pyStrip_length_le _) ?_
  refine le_trans (cleanPass_length mSpaceRun_consume _) ?_
  refine le_trans (cleanPass_length mNewlineRun_consume _) ?_
  refine le_trans (cleanPass_length mHtmlTag_consume _) ?_
  refine le_trans (cleanPass_length mTemplate_consume _) ?_
  refine le_trans (cleanPass_length mSimpleLink_consume _) ?_
  refine le_trans (cleanPass_length mPipedLink_consume _) ?_
  refine le_trans (cleanPass_length mPrefixedLink_consume _) ?_
  exact cleanPass_length mPrefixedLink_consume _

/-- Identity of the whole cleaner on strings free of closing markers,
newlines and whitespace. -/
theorem cleanWikiText_id_of {s : List Char} (h1 : ']' ∉ s) (h2 : '}' ∉ s)
    (h3 : '>' ∉ s) (hws : ∀ c ∈ s, pyWs c = false) : cleanWikiText s = s := by
  have hne : ∀ (x : Char), x ∉ s → ∀ c ∈ s, ¬ c = x :=
    fun x hx c hc he => hx (he ▸ hc)
  have hnl : '\n' ∉ s := fun hc => by
    have := hws _ hc
    simp [pyWs] at this
  have hsp : ' ' ∉ s := fun hc => by
    have := hws _ hc
    simp [pyWs] at this
  unfold cleanWikiText
  rw [cleanPass_id _ mPrefixedLink_has_close (hne _ h1),
    cleanPass_id _ mPrefixedLink_has_close (hne _ h1),
    cleanPass_id _ mPipedLink_has_close (hne _ h1),
    cleanPass_id _ mSimpleLink_has_close (hne _ h1),
    cleanPass_id _ mTemplate_has_close (hne _ h2),
    cleanPass_id _ mHtmlTag_has_close (hne _ h3),
    cleanPass_id _ mNewlineRun_has_nl (hne _ hnl),
    cleanPass_id _ mSpaceRun_has_space (hne _ hsp),
    pyStrip_id hws]

/-! ### Lemmas: computing the piped-link matcher on a piped link -/

theorem takeWhile_middle {p : Char → Bool} :
    ∀ (a : List Char) {x : Char} {b : List Char},
      (∀ c ∈ a, p c = true) → p x = false →
      (a ++ x :: b).takeWhile p = a ∧ (a ++ x :: b).dropWhile p = x :: b := by
  intro a
  induction a with
  | nil =>
    intro x b _ hx
    constructor
    · simp [List.takeWhile_cons, hx]
    · simp [List.dropWhile_cons, hx]
  | cons c cs ih =>
    intro x b ha hx
    have hc : p c = true := ha c (List.mem_cons_self _ _)
    obtain ⟨h1, h2⟩ :=
      ih (x := x) (b := b) (fun e he => ha e (List.mem_cons_of_mem _ he)) hx
    constructor
    · simp [List.takeWhile_cons, hc, h1]
    · simp [List.dropWhile_cons, hc, h2]

theorem mPipedLink_compute (t d : List Char) (ht : t ≠ []) (hd : d ≠ [])
    (ht1 : ∀ c ∈ t, (c != '|' && c != ']') = true)
    (hd1 : ∀ c ∈ d, (c != ']') = true) :
    mPipedLink ('[' :: '[' :: (t ++ '|' :: (d ++ [']', ']']))) =
      some (d, []) := by
  obtain ⟨hA1, hA2⟩ :=
    takeWhile_middle (p := fun c => c != '|' && c != ']') t
      (x := '|') (b := d ++ [']', ']']) ht1 (by decide)
  obtain ⟨hB1, hB2⟩ :=
    takeWhile_middle (p := fun c => c != ']') d
      (x := ']') (b := [']']) hd1 (by decide)
  have hte : t.isEmpty = false := by
    cases t
    · exact absurd rfl ht
    · rfl
  have hde : d.isEmpty = false := by
    cases d
    · exact absurd rfl hd
    · rfl
  simp only [mPipedLink, expectChar, takeClass1, if_pos, hA1, hA2, hB1, hB2,
    hte, hde, Bool.false_eq_true, if_false]

/-! ### Claim C1 -/

/-- C1 counterexample: on `[[a|b|c]]` the cleaner keeps `b|c` — the text
after the *first* pipe — not `c`, the text after the last pipe as the claim
states. -/
theorem cleanWikiText_piped_counterexample :
    cleanWikiText
        ('[' :: '[' :: 'a' :: '|' :: 'b' :: '|' :: 'c' :: ']' :: ']' :: []) =
      'b' :: '|' :: 'c' :: [] ∧
    ('b' :: '|' :: 'c' :: [] : List Char) ≠ 'c' :: [] := by
  constructor
  · decide
  · decide

/-- C1 (amended): for a piped internal link `[[t|d]]` whose target `t` is a
non-empty run of letters and whose remainder `d` is a non-empty run of
letters and pipes, `_clean_wiki_text` keeps exactly the text after the
*first* pipe (so `[[a|b|c]]` yields `b|c`), discarding the brackets and the
pre-pipe target. -/
theorem cleanWikiText_piped_link (t d : List Char) (ht : t ≠ []) (hd : d ≠ [])
    (htc : ∀ c ∈ t, c.isAlpha = true)
    (hdc : ∀ c ∈ d, c.isAlpha = true ∨ c = '|') :
    cleanWikiText ('[' :: '[' :: (t ++ '|' :: (d ++ [']', ']']))) = d := by
  have hmem : ∀ c ∈ ('[' :: '[' :: (t ++ '|' :: (d ++ [']', ']']))),
      c = '[' ∨ c ∈ t ∨ c = '|' ∨ c ∈ d ∨ c = ']' := by
    intro c hc
    simp only [List.mem_cons, List.mem_append] at hc
    tauto
  have hcolon : ∀ c ∈ ('[' :: '[' :: (t ++ '|' :: (d ++ [']', ']']))),
      ¬ c = ':' := by
    intro c hc
    rcases hmem c hc with rfl | h | rfl | h | rfl
    · decide
    · exact (isAlpha_ne (htc _ h)).1
    · decide
    · rcases hdc _ h with ha | rfl
      · exact (isAlpha_ne ha).1
      · decide
    · decide
  have ht1 : ∀ c ∈ t, (c != '|' && c != ']') = true := by
    intro c hc
    have h := isAlpha_ne (htc _ hc)
    simp [bne, h.2.2.1, h.2.2.2.1]
  have hd1 : ∀ c ∈ d, (c != ']') = true := by
    intro c hc
    rcases hdc _ hc with ha | rfl
    · simp [bne, (isAlpha_ne ha).2.2.1]
    · decide
  have hd_close : ']' ∉ d := by
    intro hc
    rcases hdc _ hc with ha | he
    · exact absurd ha (by decide)
    · exact absurd he (by decide)
  have hd_brace : '}' ∉ d := by
    intro hc
    rcases hdc _ hc with ha | he
    · exact absurd ha (by decide)
    · exact absurd he (by decide)
  have hd_gt : '>' ∉ d := by
    intro hc
    rcases hdc _ hc with ha | he
    · exact absurd ha (by decide)
    · exact absurd he (by decide)
  have hd_nl : '\n' ∉ d := by
    intro hc
    rcases hdc _ hc with ha | he
    · exact absurd ha (by decide)
    · exact absurd he (by decide)
  have hd_sp : ' ' ∉ d := by
    intro hc
    rcases hdc _ hc with ha | he
    · exact absurd ha (by decide)
    · exact absurd he (by decide)
  have hd_ws : ∀ c ∈ d, pyWs c = false := by
    intro c hc
    rcases hdc _ hc with ha | rfl
    · exact (isAlpha_ne ha).2.2.2.2.2.2.2.2.2
    · decide
  have hne : ∀ (x : Char), x ∉ d → ∀ c ∈ d, ¬ c = x :=
    fun x hx c hc he => hx (he ▸ hc)
  have h3 : cleanPass mPipedLink
      ('[' :: '[' :: (t ++ '|' :: (d ++ [']', ']']))) = d := by
    have e : cleanPass mPipedLink
        ('[' :: '[' :: (t ++ '|' :: (d ++ [']', ']']))) =
        d ++ applySubF mPipedLink
          (('[' :: (t ++ '|' :: (d ++ [']', ']']))).length) [] :=
      applySubF_cons_match (mPipedLink_compute t d ht hd ht1 hd1) _
    rw [applySubF_nil, List.append_nil] at e
    exact e
  unfold cleanWikiText
  rw [cleanPass_id _ mPrefixedLink_has_colon hcolon,
    cleanPass_id _ mPrefixedLink_has_colon hcolon, h3,
    cleanPass_id _ mSimpleLink_has_close (hne _ hd_close),
    cleanPass_id _ mTemplate_has_close (hne _ hd_brace),
    cleanPass_id _ mHtmlTag_has_close (hne _ hd_gt),
    cleanPass_id _ mNewlineRun_has_nl (hne _ hd_nl),
    cleanPass_id _ mSpaceRun_has_space (hne _ hd_sp),
    pyStrip_id hd_ws]

/-- C1 witness: the amended theorem applied at `[[a|b|c]]`. -/
theorem cleanWikiText_piped_link_witness :
    cleanWikiText
        ('[' :: '[' :: 'a' :: '|' :: 'b' :: '|' :: 'c' :: ']' :: ']' :: []) =
      'b' :: '|' :: 'c' :: [] :=
  cleanWikiText_piped_link ('a' :: []) ('b' :: '|' :: 'c' :: [])
    (by decide) (by decide) (by decide) (by decide)

/-! ### Claim C9 -/

/-- C9: `_clean_wiki_text` is a total function that never lengthens its
input (in particular it terminates and cannot throw), and on any string
whose characters are letters or unmatched opening markers `[`, `{`, `<`
(with pipes allowed) it is the identity: unmatched opening markers with no
matching close are left in the output as literal text. -/
theorem cleanWikiText_safe :
    (∀ s : List Char, (cleanWikiText s).length ≤ s.length) ∧
    (∀ s : List Char,
      (∀ c ∈ s, c.isAlpha = true ∨ c = '[' ∨ c = '{' ∨ c = '<' ∨ c = '|') →
      cleanWikiText s = s) := by
  refine ⟨cleanWikiText_length_le, ?_⟩
  intro s hs
  apply cleanWikiText_id_of
  · intro hc
    have := hs _ hc
    revert this
    decide
  · intro hc
    have := hs _ hc
    revert this
    decide
  · intro hc
    have := hs _ hc
    revert this
    decide
  · intro c hc
    rcases hs _ hc with ha | rfl | rfl | rfl | rfl
    · exact (isAlpha_ne ha).2.2.2.2.2.2.2.2.2
    · decide
    · decide
    · decide
    · decide

/-- C9 witness: the unbalanced input `[[abc` (a `[[` with no `]]`) passes
through the cleaner unchanged. -/
theorem cleanWikiText_safe_witness :
    cleanWikiText ('[' :: '[' :: 'a' :: 'b' :: 'c' :: []) =
      '[' :: '[' :: 'a' :: 'b' :: 'c' :: [] :=
  cleanWikiText_safe.2 _ (by decide)

/-! ### Lemmas: `pyRfind` -/

theorem pyRfind_spec (c : Char) : ∀ s : List Char,
    (pyRfind c s = -1 ∧ c ∉ s) ∨
    (∃ j : Nat, pyRfind c s = (j : Int) ∧ j < s.length ∧ s[j]? = some c ∧
      ∀ l, j < l → l < s.length → s[l]? ≠ some c) := by
  intro s
  induction s with
  | nil => exact Or.inl ⟨rfl, by simp⟩
  | cons x xs ih =>
    rcases ih with ⟨h1, h2⟩ | ⟨j, h1, h2, h3, h4⟩
    · by_cases hx : x = c
      · refine Or.inr ⟨0, ?_, by simp, by simp [hx], ?_⟩
        · simp [pyRfind, h1, hx]
        · intro l hl hlen
          cases l with
          | zero => omega
          | succ l' =>
            rw [List.getElem?_cons_succ]
            intro hmem
            exact h2 (List.getElem?_mem hmem)
      · refine Or.inl ⟨?_, ?_⟩
        · simp [pyRfind, h1, hx]
        · intro hmem
          rcases List.mem_cons.1 hmem with he | hm
          · exact hx he.symm
          · exact h2 hm
    · refine Or.inr ⟨j + 1, ?_, by simpa using h2, by simpa using h3, ?_⟩
      · simp [pyRfind, h1]
      · intro l hl hlen
        cases l with
        | zero => omega
        | succ l' =>
          rw [List.getElem?_cons_succ]
          refine h4 l' (by omega) (by simpa using hlen)

theorem pyRfind_ge {c : Char} {s : List Char} {i : Nat}
    (h : s[i]? = some c) : (i : Int) ≤ pyRfind c s := by
  rcases pyRfind_spec c s with ⟨-, h2⟩ | ⟨j, h1, -, -, h4⟩
  · exact absurd (List.getElem?_mem h) h2
  · rw [h1]
    by_contra hlt
    have hji : j < i := by omega
    have hilen : i < s.length := by
      by_contra hge
      rw [List.getElem?_eq_none (by omega)] at h
      cases h
    exact h4 i hji hilen h

/-- The maximum of the last-space and last-newline indices is the last
index holding a space or newline, whenever one exists. -/
theorem maxRfind_spec {s : List Char} {i : Nat}
    (hi : s[i]? = some ' ' ∨ s[i]? = some '\n') :
    ∃ j : Nat, max (pyRfind ' ' s) (pyRfind '\n' s) = (j : Int) ∧ i ≤ j ∧
      j < s.length ∧ (s[j]? = some ' ' ∨ s[j]? = some '\n') ∧
      ∀ l, j < l → l < s.length →
        ¬(s[l]? = some ' ' ∨ s[l]? = some '\n') := by
  have hione : (i : Int) ≤ max (pyRfind ' ' s) (pyRfind '\n' s) := by
    rcases hi with hsp | hnl
    · exact le_trans (pyRfind_ge hsp) (le_max_left _ _)
    · exact le_trans (pyRfind_ge hnl) (le_max_right _ _)
  rcases le_total (pyRfind '\n' s) (pyRfind ' ' s) with hc | hc
  · rw [max_eq_left hc] at hione ⊢
    rcases pyRfind_spec ' ' s with ⟨h1, -⟩ | ⟨j, h1, h2, h3, h4⟩
    · rw [h1] at hione; omega
    · refine ⟨j, h1, by omega, h2, Or.inl h3, ?_⟩
      intro l hl hlen hat
      rcases hat with hat | hat
      · exact h4 l hl hlen hat
      · have := pyRfind_ge hat
        rw [h1] at hc
        omega
  · rw [max_eq_right hc] at hione ⊢
    rcases pyRfind_spec '\n' s with ⟨h1, -⟩ | ⟨j, h1, h2, h3, h4⟩
    · rw [h1] at hione; omega
    · refine ⟨j, h1, by omega, h2, Or.inr h3, ?_⟩
      intro l hl hlen hat
      rcases hat with hat | hat
      · have := pyRfind_ge hat
        rw [h1] at hc
        omega
      · exact h4 l hl hlen hat

/-- When no index holds a space or newline past the threshold, the maximum
of the two rfind results is either `-1` or an in-range space/newline
index. -/
theorem maxRfind_cases (s : List Char) :
    max (pyRfind ' ' s) (pyRfind '\n' s) = -1 ∨
    ∃ j : Nat, max (pyRfind ' ' s) (pyRfind '\n' s) = (j : Int) ∧
      j < s.length ∧ (s[j]? = some ' ' ∨ s[j]? = some '\n') := by
  rcases pyRfind_spec ' ' s with ⟨hA, -⟩ | ⟨jA, hA, hA2, hA3, -⟩ <;>
    rcases pyRfind_spec '\n' s with ⟨hB, -⟩ | ⟨jB, hB, hB2, hB3, -⟩
  · exact Or.inl (by rw [hA, hB]; exact max_self _)
  · refine Or.inr ⟨jB, ?_, hB2, Or.inr hB3⟩
    rw [hA, hB, max_eq_right (by omega : (-1 : Int) ≤ (jB : Int))]
  · refine Or.inr ⟨jA, ?_, hA2, Or.inl hA3⟩
    rw [hA, hB, max_eq_left (by omega : (-1 : Int) ≤ (jA : Int))]
  · rcases le_total ((jB : Int)) ((jA : Int)) with hc | hc
    · refine Or.inr ⟨jA, ?_, hA2, Or.inl hA3⟩
      rw [hA, hB, max_eq_left hc]
    · refine Or.inr ⟨jB, ?_, hB2, Or.inr hB3⟩
      rw [hA, hB, max_eq_right hc]

/-! ### Claim C3 -/

theorem cutThreshold07_nonneg (n : Nat) : 0 ≤ cutThreshold07 n := by
  unfold cutThreshold07
  split <;> omega

/-- C3: `_truncate_content` returns `content` unchanged when its length is
at most `n`.  Otherwise it takes the first `n` characters and: if some
space/newline inside that prefix lies past 70% of `n` — the program's
binary64 test `index > n * 0.7`, modelled exactly by
`cutThreshold07 n ≤ index` — it cuts at the rightmost space/newline of the
prefix (so the cut is at a word boundary — no word is cut) and appends the
ellipsis marker; if no space/newline passes that test, it cuts at exactly
`n` and appends the ellipsis marker anyway. -/
theorem truncateContent_word_boundary (content : List Char) (n : Nat) :
    (content.length ≤ n → truncateContent content n = content) ∧
    (n < content.length →
      (∀ i, i < n → cutThreshold07 n ≤ (i : Int) →
        (content[i]? = some ' ' ∨ content[i]? = some '\n') →
        ∃ j, i ≤ j ∧ j < n ∧
          (content[j]? = some ' ' ∨ content[j]? = some '\n') ∧
          (∀ l, j < l → l < n →
            ¬(content[l]? = some ' ' ∨ content[l]? = some '\n')) ∧
          truncateContent content n = content.take j ++ ellipsisMarker) ∧
      ((∀ i, i < n → cutThreshold07 n ≤ (i : Int) →
          ¬(content[i]? = some ' ' ∨ content[i]? = some '\n')) →
        truncateContent content n = content.take n ++ ellipsisMarker)) := by
  constructor
  · intro h
    simp [truncateContent, h]
  · intro hlen
    have hnot : ¬ content.length ≤ n := by omega
    have htrlen : (content.take n).length = n := by
      rw [List.length_take, Nat.min_eq_left (Nat.le_of_lt hlen)]
    constructor
    · intro i hi h70 hat
      have hat' : (content.take n)[i]? = some ' ' ∨
          (content.take n)[i]? = some '\n' := by
        rw [List.getElem?_take, if_pos hi]
        exact hat
      obtain ⟨j, hmax, hij, hjlen, hjat, hjmaxi⟩ := maxRfind_spec hat'
      rw [htrlen] at hjlen
      have hjat' : content[j]? = some ' ' ∨ content[j]? = some '\n' := by
        rwa [List.getElem?_take, if_pos hjlen] at hjat
      refine ⟨j, hij, hjlen, hjat', ?_, ?_⟩
      · intro l hl hln hat2
        refine hjmaxi l hl (by rw [htrlen]; exact hln) ?_
        rw [List.getElem?_take, if_pos hln]
        exact hat2
      · simp only [truncateContent]
        rw [if_neg hnot, hmax,
          if_pos (by omega : cutThreshold07 n ≤ ((j : Nat) : Int)),
          Int.toNat_natCast, List.take_take, Nat.min_eq_left (Nat.le_of_lt hjlen)]
    · intro hno
      rcases maxRfind_cases (content.take n) with hm | ⟨j, hm, hjlen, hjat⟩
      · have hpos := cutThreshold07_nonneg n
        simp only [truncateContent]
        rw [if_neg hnot, hm, if_neg (by omega : ¬ cutThreshold07 n ≤ (-1 : Int))]
      · rw [htrlen] at hjlen
        have hjat' : content[j]? = some ' ' ∨ content[j]? = some '\n' := by
          rwa [List.getElem?_take, if_pos hjlen] at hjat
        have hle : ¬ cutThreshold07 n ≤ ((j : Nat) : Int) :=
          fun h70 => hno j hjlen h70 hjat'
        simp only [truncateContent]
        rw [if_neg hnot, hm, if_neg hle]

/-- C3 witness: on `"hello world ab"` with target 13 the space at index 11
passes the 70% test (`cutThreshold07 13 = 10 ≤ 11`), so the cut is there
and no word is cut. -/
theorem truncateContent_word_boundary_witness :
    ∃ j, 11 ≤ j ∧ j < 13 ∧
      (("hello world ab".data)[j]? = some ' ' ∨
        ("hello world ab".data)[j]? = some '\n') ∧
      (∀ l, j < l → l < 13 →
        ¬(("hello world ab".data)[l]? = some ' ' ∨
          ("hello world ab".data)[l]? = some '\n')) ∧
      truncateContent "hello world ab".data 13 =
        ("hello world ab".data).take j ++ ellipsisMarker :=
  ((truncateContent_word_boundary "hello world ab".data 13).2
    (by decide)).1 11 (by decide) (by decide) (by decide)

/-! ### Lemmas: `_apply_max_chars` -/

theorem applyMaxChars_le_total {m : Material} {maxChars : Nat}
    (h : totalChars m ≤ maxChars) : applyMaxChars m maxChars = m := by
  simp [applyMaxChars, h]

theorem applyMaxChars_sourceUrls (m : Material) (maxChars : Nat) :
    (applyMaxChars m maxChars).sourceUrls = m.sourceUrls := by
  unfold applyMaxChars
  split <;> rfl

theorem truncateContent_length_le (c : List Char) (k : Nat) :
    (truncateContent c k).length ≤ k + 3 := by
  by_cases h : c.length ≤ k
  · simp only [truncateContent, if_pos h]
    omega
  · simp only [truncateContent, if_neg h]
    split
    · simp only [List.length_append, List.length_take, ellipsisMarker,
        List.length_cons, List.length_nil]
      omega
    · simp only [List.length_append, List.length_take, ellipsisMarker,
        List.length_cons, List.length_nil]
      omega

theorem mapped_sections_sum_le (secs : List WSection) (per : Nat) :
    (List.map (fun s : WSection => s.content.length)
      (List.map (fun s : WSection =>
        if per < s.content.length then
          (⟨s.title, truncateContent s.content per⟩ : WSection)
        else s) secs)).sum ≤ secs.length * per + 3 * secs.length := by
  induction secs with
  | nil => simp
  | cons x xs ih =>
    simp only [List.map_cons, List.sum_cons, List.length_cons]
    have hx : (if per < x.content.length then
        (⟨x.title, truncateContent x.content per⟩ : WSection)
      else x).content.length ≤ per + 3 := by
      split
      · exact truncateContent_length_le _ _
      · next h => omega
    rw [Nat.succ_mul]
    omega

/-! ### Claim C4 -/

/-- C4: when the total content length (summary plus section contents,
titles not counted) is at most `maxChars`, `_apply_max_chars` returns the
document unchanged. -/
theorem applyMaxChars_identity_short (m : Material) (maxChars : Nat)
    (h : totalChars m ≤ maxChars) : applyMaxChars m maxChars = m := by
  simp [applyMaxChars, h]

/-- C4 witness: a short document passes through `_apply_max_chars`
unchanged. -/
theorem applyMaxChars_identity_short_witness :
    totalChars ⟨"T".data, "hi".data, [⟨"A".data, "body".data⟩], [],
      "wikibooks".data⟩ ≤ 4000 ∧
    applyMaxChars ⟨"T".data, "hi".data, [⟨"A".data, "body".data⟩], [],
      "wikibooks".data⟩ 4000 =
      ⟨"T".data, "hi".data, [⟨"A".data, "body".data⟩], [],
        "wikibooks".data⟩ :=
  ⟨by decide, applyMaxChars_identity_short _ 4000 (by decide)⟩

/-! ### Claim C10 -/

/-- C10: for `maxChars ≥ 500` the output of `_apply_max_chars` has total
content length at most `maxChars + 3 · (number of sections)`; moreover when
truncation happens at all, the resulting summary has length at most
`int(0.4 · maxChars) + 3 = 2 · maxChars / 5 + 3`, and the remaining budget
entering the per-section split, `maxChars - len(summary)`, is strictly
positive (so the per-section branch runs whenever sections exist). -/
theorem applyMaxChars_budget (m : Material) (maxChars : Nat)
    (h500 : 500 ≤ maxChars) :
    totalChars (applyMaxChars m maxChars) ≤
      maxChars + 3 * m.sections.length ∧
    (maxChars < totalChars m →
      (applyMaxChars m maxChars).summary.length ≤ 2 * maxChars / 5 + 3 ∧
      (applyMaxChars m maxChars).summary.length < maxChars) := by
  by_cases htot : totalChars m ≤ maxChars
  · rw [applyMaxChars_le_total htot]
    exact ⟨le_trans htot (by omega), fun hc => absurd htot (by omega)⟩
  · simp only [applyMaxChars, if_neg htot]
    set S := (if m.summary ≠ [] ∧ 5 * m.summary.length > 2 * maxChars then
        truncateContent m.summary (2 * maxChars / 5)
      else m.summary) with hS
    have hSlen : S.length ≤ 2 * maxChars / 5 + 3 := by
      rw [hS]
      split
      · exact truncateContent_length_le _ _
      · next hcond =>
          by_cases hsum : m.summary = []
          · simp [hsum]
          · have h5 : ¬ 5 * m.summary.length > 2 * maxChars :=
              fun hgt => hcond ⟨hsum, hgt⟩
            omega
    have hSmax : S.length < maxChars := by omega
    have hrem : (0 : Int) < (maxChars : Int) - (S.length : Int) := by omega
    constructor
    · by_cases hsec : m.sections = []
      · simp only [hsec]
        simp [totalChars]
        omega
      · rw [if_pos ⟨hsec, hrem⟩]
        simp only [totalChars]
        have hsum := mapped_sections_sum_le m.sections
          (((maxChars : Int) - (S.length : Int)).toNat / m.sections.length)
        have hdiv : m.sections.length *
            (((maxChars : Int) - (S.length : Int)).toNat /
              m.sections.length) ≤
            ((maxChars : Int) - (S.length : Int)).toNat := by
          rw [Nat.mul_comm]
          exact Nat.div_mul_le_self _ _
        omega
    · intro hc
      exact ⟨hSlen, hSmax⟩

/-- C10 witness: the budget bound applied at `maxChars = 500` on a document
with a 600-character summary and one 600-character section. -/
theorem applyMaxChars_budget_witness :
    totalChars (applyMaxChars
        ⟨['T'], List.replicate 600 'a',
          [⟨['S'], List.replicate 600 'b'⟩], [], ['s']⟩ 500) ≤
      500 + 3 * (⟨['T'], List.replicate 600 'a',
        [⟨['S'], List.replicate 600 'b'⟩], [], ['s']⟩ :
          Material).sections.length ∧
    (500 < totalChars ⟨['T'], List.replicate 600 'a',
        [⟨['S'], List.replicate 600 'b'⟩], [], ['s']⟩ →
      (applyMaxChars ⟨['T'], List.replicate 600 'a',
          [⟨['S'], List.replicate 600 'b'⟩], [], ['s']⟩ 500).summary.length ≤
        2 * 500 / 5 + 3 ∧
      (applyMaxChars ⟨['T'], List.replicate 600 'a',
          [⟨['S'], List.replicate 600 'b'⟩], [], ['s']⟩ 500).summary.length <
        500) :=
  applyMaxChars_budget _ 500 (by decide)

/-! ### Lemmas: `_parse_sections` -/

theorem finalizeInto_nonempty {sections : List WSection}
    {cur : Option (List Char × List (List Char))}
    (h : ∀ s ∈ sections, pyStrip s.content ≠ []) :
    ∀ s ∈ finalizeInto sections cur, pyStrip s.content ≠ [] := by
  intro s hs
  cases cur with
  | none => exact h s hs
  | some p =>
    obtain ⟨t, ls⟩ := p
    simp only [finalizeInto] at hs
    generalize cleanWikiText (joinNl ls) = X at hs
    by_cases hg : pyStrip X = []
    · rw [if_pos hg] at hs
      exact h s hs
    · rw [if_neg hg] at hs
      simp only [List.mem_append, List.mem_singleton] at hs
      rcases hs with hmem | hmem
      · exact h s hmem
      · have hc := congrArg WSection.content hmem
        rw [hc]
        exact hg

theorem parseGo_nonempty :
    ∀ (lines : List (List Char)) (sections : List WSection)
      (cur : Option (List Char × List (List Char)))
      (summaryLines : List (List Char)) (inSummary : Bool),
      (∀ s ∈ sections, pyStrip s.content ≠ []) →
      ∀ s ∈ (parseGo lines sections cur summaryLines inSummary).sections,
        pyStrip s.content ≠ [] := by
  intro lines
  induction lines with
  | nil =>
    intro sections cur summaryLines inSummary h s hs
    simp only [parseGo] at hs
    exact finalizeInto_nonempty h s hs
  | cons line rest ih =>
    intro sections cur summaryLines inSummary h s hs
    simp only [parseGo] at hs
    split at hs
    · exact ih _ _ _ _ (finalizeInto_nonempty h) s hs
    · split at hs
      · exact ih _ _ _ _ h s hs
      · split at hs
        · exact ih _ _ _ _ h s hs
        · exact ih _ _ _ _ h s hs

/-! ### Claim C6 -/

/-- C6: every section in the result of `_parse_sections` has non-empty
content after cleaning: a section whose accumulated body cleans and strips
to the empty string is dropped rather than appended, for interior sections
and for the final section alike. -/
theorem parseSections_sections_nonempty (text title : List Char) :
    ∀ s ∈ (parseSections text title).sections,
      s.content ≠ [] ∧ pyStrip s.content ≠ [] := by
  intro s hs
  have hstrip : pyStrip s.content ≠ [] := by
    unfold parseSections at hs
    split at hs
    · simp at hs
    · exact parseGo_nonempty _ [] none [] true (by simp) s hs
  refine ⟨fun hnil => hstrip ?_, hstrip⟩
  rw [hnil]
  rfl

/-- C6 witness: the section parsed from `"x\n== A ==\nbody"` has non-empty
content. -/
theorem parseSections_sections_nonempty_witness :
    (⟨"A".data, "body".data⟩ : WSection).content ≠ [] ∧
    pyStrip (⟨"A".data, "body".data⟩ : WSection).content ≠ [] :=
  parseSections_sections_nonempty
    ('x' :: '\n' :: "== A ==".data ++ '\n' :: "body".data) "T".data
    ⟨"A".data, "body".data⟩ (by decide)

/-! ### Lemmas: the source cascade -/

theorem trySource_sourceUrls {src : Source} {r : SourceResp}
    {maxChars : Nat} {mat : Material}
    (h : trySource src r maxChars = some mat) :
    ∃ hit art, r = SourceResp.resp (some hit) (some art) ∧
      mat.sourceUrls = if art.url = [] then [] else [art.url] := by
  cases r with
  | raises => simp [trySource] at h
  | resp os oa =>
    cases os with
    | none => simp [trySource] at h
    | some hit =>
      cases oa with
      | none => simp [trySource] at h
      | some a =>
        simp only [trySource] at h
        split at h
        · cases h
        · split at h
          · cases h
          · cases h
            refine ⟨hit, a, rfl, ?_⟩
            rw [applyMaxChars_sourceUrls]

theorem cascadeGo_all_none (maxChars : Nat) (env : Nat → SourceResp) :
    ∀ (l : List Source) (k : Nat),
      (∀ i s, l[i]? = some s → trySource s (env (k + i)) maxChars = none) →
      cascadeGo maxChars env l k = (none, l.length) := by
  intro l
  induction l with
  | nil => intro k h; rfl
  | cons src rest ih =>
    intro k h
    have h0 : trySource src (env k) maxChars = none := by
      have := h 0 src (by simp)
      simpa using this
    have hrec : cascadeGo maxChars env rest (k + 1) = (none, rest.length) := by
      refine ih (k + 1) ?_
      intro i s hi
      have := h (i + 1) s (by simpa using hi)
      have he : k + (i + 1) = k + 1 + i := by omega
      rwa [he] at this
    simp [cascadeGo, h0, hrec]

theorem cascadeGo_first_success (maxChars : Nat) (env : Nat → SourceResp) :
    ∀ (l : List Source) (k i : Nat) (srcI : Source) (mat : Material),
      (∀ j s, j < i → l[j]? = some s →
        trySource s (env (k + j)) maxChars = none) →
      l[i]? = some srcI → trySource srcI (env (k + i)) maxChars = some mat →
      cascadeGo maxChars env l k = (some mat, i + 1) := by
  intro l
  induction l with
  | nil =>
    intro k i srcI mat h hi hsucc
    simp at hi
  | cons src rest ih =>
    intro k i srcI mat h hi hsucc
    cases i with
    | zero =>
      have he : src = srcI := by simpa using hi
      subst he
      have h0 : trySource src (env k) maxChars = some mat := by
        simpa using hsucc
      simp [cascadeGo, h0]
    | succ i' =>
      have h0 : trySource src (env k) maxChars = none := by
        have := h 0 src (by omega) (by simp)
        simpa using this
      have hrec : cascadeGo maxChars env rest (k + 1) = (some mat, i' + 1) := by
        refine ih (k + 1) i' srcI mat ?_ (by simpa using hi) ?_
        · intro j s hj hjs
          have := h (j + 1) s (by omega) (by simpa using hjs)
          have he : k + (j + 1) = k + 1 + j := by omega
          rwa [he] at this
        · have he : k + (i' + 1) = k + 1 + i' := by omega
          rwa [he] at hsucc
      simp [cascadeGo, h0, hrec]

theorem cascadeGo_success_inv (maxChars : Nat) (env : Nat → SourceResp) :
    ∀ (l : List Source) (k : Nat) (mat : Material) (n : Nat),
      cascadeGo maxChars env l k = (some mat, n) →
      ∃ i s, l[i]? = some s ∧
        trySource s (env (k + i)) maxChars = some mat := by
  intro l
  induction l with
  | nil =>
    intro k mat n h
    simp [cascadeGo] at h
  | cons src rest ih =>
    intro k mat n h
    simp only [cascadeGo] at h
    cases ht : trySource src (env k) maxChars with
    | some m' =>
      rw [ht] at h
      simp only [Prod.mk.injEq, Option.some_inj] at h
      exact ⟨0, src, by simp, by simpa [h.1] using ht⟩
    | none =>
      rw [ht] at h
      simp only [Prod.mk.injEq] at h
      have hfst : cascadeGo maxChars env rest (k + 1) =
          ((cascadeGo maxChars env rest (k + 1)).1,
            (cascadeGo maxChars env rest (k + 1)).2) := rfl
      rw [h.1] at hfst
      obtain ⟨i, s, hi, hts⟩ := ih (k + 1) mat _ hfst
      refine ⟨i + 1, s, by simpa using hi, ?_⟩
      have he : k + (i + 1) = k + 1 + i := by omega
      rwa [he]

/-! ### Claim C8 -/

/-- C8: for a language not present in `WIKI_SOURCES`, `wiki_get_material`
returns the structured unsupported-language error carrying the topic, with
zero sources queried — no search or fetch call is made. -/
theorem wikiGetMaterial_unsupported (topic language : List Char)
    (maxChars : Nat) (env : Nat → SourceResp)
    (h : lookupSources language = none) :
    wikiGetMaterial topic language maxChars env =
      (WikiResult.unsupportedLanguage topic language, 0) := by
  simp [wikiGetMaterial, h]

/-- C8 witness: language `"fr"` is rejected with no network activity. -/
theorem wikiGetMaterial_unsupported_witness :
    wikiGetMaterial "t".data "fr".data 4000 (fun _ => SourceResp.raises) =
      (WikiResult.unsupportedLanguage "t".data "fr".data, 0) :=
  wikiGetMaterial_unsupported _ _ 4000 _ (by decide)

/-! ### Claim C7 -/

/-- C7: when every configured source for the language fails to produce a
usable document, `wiki_get_material` returns (not raises) the structured
not-found payload carrying the topic and the names of all configured
sources for that language, in order. -/
theorem wikiGetMaterial_exhausted (topic language : List Char)
    (maxChars : Nat) (env : Nat → SourceResp) (sources : List Source)
    (hl : lookupSources language = some sources)
    (hall : ∀ i s, sources[i]? = some s →
      trySource s (env i) maxChars = none) :
    wikiGetMaterial topic language maxChars env =
      (WikiResult.notFound topic (sources.map (fun s => s.name)),
        sources.length) := by
  have hc := cascadeGo_all_none maxChars env sources 0
    (fun i s hi => by simpa using hall i s hi)
  simp [wikiGetMaterial, hl, hc]

/-- C7 witness: with every source raising, the Russian cascade returns
not-found listing `wikibooks` then `wikipedia`. -/
theorem wikiGetMaterial_exhausted_witness :
    wikiGetMaterial "t".data "ru".data 4000 (fun _ => SourceResp.raises) =
      (WikiResult.notFound "t".data ["wikibooks".data, "wikipedia".data],
        2) :=
  wikiGetMaterial_exhausted _ _ 4000 _
    [⟨"wikibooks".data, "https://ru.wikibooks.org/w/api.php".data⟩,
     ⟨"wikipedia".data, "https://ru.wikipedia.org/w/api.php".data⟩]
    (by decide) (fun i s _ => rfl)

/-! ### Claim C5 -/

/-- C5: if the sources before index `i` all fail and source `i` yields a
usable document, `wiki_get_material` returns that source's result with
exactly `i + 1` sources queried — no source after the `i`-th is searched or
fetched. -/
theorem wikiGetMaterial_first_success (topic language : List Char)
    (maxChars : Nat) (env : Nat → SourceResp) (sources : List Source)
    (i : Nat) (srcI : Source) (mat : Material)
    (hl : lookupSources language = some sources)
    (hfirst : ∀ j s, j < i → sources[j]? = some s →
      trySource s (env j) maxChars = none)
    (hi : sources[i]? = some srcI)
    (hsucc : trySource srcI (env i) maxChars = some mat) :
    wikiGetMaterial topic language maxChars env =
      (WikiResult.material mat, i + 1) := by
  have hc := cascadeGo_first_success maxChars env sources 0 i srcI mat
    (fun j s hj hjs => by simpa using hfirst j s hj hjs) hi
    (by simpa using hsucc)
  simp [wikiGetMaterial, hl, hc]

/-- C5 witness: on the English cascade where source 0 has no search hit and
source 1 (vikidia) succeeds, the result is vikidia's material and exactly 2
sources were queried. -/
theorem wikiGetMaterial_first_success_witness :
    wikiGetMaterial "t".data "en".data 4000
        (fun i => if i = 0 then SourceResp.resp none none
          else SourceResp.resp (some ⟨"T".data, 1⟩)
            (some ⟨"T".data, "Hello".data, "u".data⟩)) =
      (WikiResult.material
        ⟨"T".data, "Hello".data, [], ["u".data], "vikidia".data⟩, 2) :=
  wikiGetMaterial_first_success _ _ 4000 _
    [⟨"wikibooks".data, "https://en.wikibooks.org/w/api.php".data⟩,
     ⟨"vikidia".data, "https://en.vikidia.org/w/api.php".data⟩,
     ⟨"wikipedia".data, "https://en.wikipedia.org/w/api.php".data⟩]
    1 ⟨"vikidia".data, "https://en.vikidia.org/w/api.php".data⟩
    ⟨"T".data, "Hello".data, [], ["u".data], "vikidia".data⟩
    (by decide)
    (fun j s hj hjs => by
      have hj0 : j = 0 := by omega
      subst hj0
      have hs : (⟨"wikibooks".data,
          "https://en.wikibooks.org/w/api.php".data⟩ : Source) = s := by
        simpa using hjs
      rw [← hs]
      rfl)
    (by decide) (by decide)

/-! ### Claim C2 -/

/-- C2 counterexample: a successful invocation whose fetched article has an
empty URL field returns a material result whose `source_urls` is the empty
list — it does not contain at least one entry. -/
theorem wikiGetMaterial_sourceUrls_counterexample :
    wikiGetMaterial "t".data "ru".data 4000
        (fun _ => SourceResp.resp (some ⟨"T".data, 1⟩)
          (some ⟨"T".data, "Hi".data, []⟩)) =
      (WikiResult.material
        ⟨"T".data, "Hi".data, [], [], "wikibooks".data⟩, 1) ∧
    (⟨"T".data, "Hi".data, [], [], "wikibooks".data⟩ :
      Material).sourceUrls = [] := by
  constructor
  · decide
  · rfl

/-- C2 (amended): on every successful invocation, `source_urls` is the
one-element list containing the fetched article's URL when that URL is
non-empty, and the empty list when the URL field is empty — so it can have
zero entries. -/
theorem wikiGetMaterial_sourceUrls (topic language : List Char)
    (maxChars : Nat) (env : Nat → SourceResp) (mat : Material) (n : Nat)
    (h : wikiGetMaterial topic language maxChars env =
      (WikiResult.material mat, n)) :
    ∃ i hit art, env i = SourceResp.resp (some hit) (some art) ∧
      mat.sourceUrls = if art.url = [] then [] else [art.url] := by
  unfold wikiGetMaterial at h
  split at h
  · simp at h
  next sources hl =>
    split at h
    next m' cnt hc =>
      simp only [Prod.mk.injEq, WikiResult.material.injEq] at h
      obtain ⟨i, s, hi, hts⟩ :=
        cascadeGo_success_inv maxChars env sources 0 m' cnt hc
      obtain ⟨hit, art, hresp, hurls⟩ := trySource_sourceUrls hts
      refine ⟨i, hit, art, by simpa using hresp, ?_⟩
      rw [← h.1]
      exact hurls
    next cnt hc => simp at h

/-- C2 witness: the amended statement applied at a run whose article URL is
`"u"`, giving `source_urls = ["u"]`. -/
theorem wikiGetMaterial_sourceUrls_witness :
    ∃ i hit art,
      (fun _ : Nat => SourceResp.resp (some ⟨"T".data, 1⟩)
        (some (⟨"T".data, "Hi".data, "u".data⟩ : Article))) i =
        SourceResp.resp (some hit) (some art) ∧
      (⟨"T".data, "Hi".data, [], ["u".data], "wikibooks".data⟩ :
        Material).sourceUrls = if art.url = [] then [] else [art.url] :=
  wikiGetMaterial_sourceUrls "t".data "ru".data 4000 _ _ 1 (by decide)

end SchoolMCP
